import Mathlib

set_option maxHeartbeats 1000000

namespace HeapSpec

/-! # Shallow embedding of the `heap` package (src/heap.go)

The package implements a generic binary min/max heap backed by a Go slice.
Source functions are embedded one-for-one: `bubble`, `pushRootHoleDownToLeaf`,
`push`, `pop`, `shrink`, `filter`, `Peek`, `Clear`, `Copy`, `Len`, `cmpOrdered`,
`parentIndex`, `leftChildIndex`, `rightChildIndex`.  Go slices are modelled by
`GoSlice` (elements, capacity, nil-ness), since the specification speaks about
the canonical nil empty representation and the capacity bound of `shrink`.
Loops are embedded as structurally recursive functions on an explicit fuel
argument so that every definition computes by kernel reduction; each wrapper
supplies fuel that provably suffices. -/

/-- Source `MinOrMax` with its two implementations `Min` and `Max`. -/
inductive MinOrMax : Type
  | Min
  | Max
deriving DecidableEq

/-- Source methods `Min.mul = 1` and `Max.mul = -1`. -/
def MinOrMax.mul : MinOrMax → Int
  | .Min => 1
  | .Max => -1

/-- Source `cmpOrdered`: `-1` if `a < b`, `1` if `a > b`, else `0`. -/
def cmpOrdered {T : Type} [LinearOrder T] (a b : T) : Int :=
  if a < b then -1 else if a > b then 1 else 0

/-- Source `BreakOrContinue` with constants `Break` and `Continue`. -/
inductive BreakOrContinue : Type
  | Break
  | Continue
deriving DecidableEq

/-- Source `parentIndex`. -/
def parentIndex (i : Nat) : Nat := (i - 1) / 2

/-- Source `leftChildIndex`. -/
def leftChildIndex (i : Nat) : Nat := i * 2 + 1

/-- Source `rightChildIndex`. -/
def rightChildIndex (i : Nat) : Nat := i * 2 + 2

/-- A Go slice value: its visible elements, its capacity, and whether it is the
nil slice.  A nil slice has no elements and capacity 0. -/
structure GoSlice (T : Type) where
  data : List T
  cap : Nat
  isNil : Bool
deriving DecidableEq

/-- The nil slice (`var s []T`). -/
def nilSlice (T : Type) : GoSlice T := ⟨[], 0, true⟩

/-- Go `append(a, x)` for a single element: reuse the backing store while the
length is below the capacity, otherwise allocate a larger store.  Go's exact
growth amount is runtime specific; the model doubles (the behaviour for small
slices).  No theorem below depends on the growth amount. -/
def goAppend {T : Type} (a : GoSlice T) (x : T) : GoSlice T :=
  if a.data.length < a.cap then ⟨a.data ++ [x], a.cap, false⟩
  else ⟨a.data ++ [x], max (a.data.length + 1) (2 * a.cap), false⟩

/-- Go `a[:n]` for `n ≤ len(a)`: the data pointer (hence nil-ness) and the
capacity are retained, only the visible length changes. -/
def goTake {T : Type} (a : GoSlice T) (n : Nat) : GoSlice T :=
  ⟨a.data.take n, a.cap, a.isNil⟩

/-- Source `shrink`: a length-1 slice reverts to nil; otherwise drop the last
slot and, when the (unchanged) capacity satisfies `cap/2 >= len`, reallocate to
a store of capacity exactly the new length (`make` + `copy`).  Callers only
invoke `shrink` on slices of length at least 1. -/
def shrink {T : Type} (a : GoSlice T) : GoSlice T :=
  if a.data.length = 1 then nilSlice T
  else
    let a2 := goTake a (a.data.length - 1)
    if a2.data.length ≤ a2.cap / 2 then ⟨a2.data, a2.data.length, false⟩
    else a2

/-- Swap of two list positions, as in Go's parallel assignment
`sl[i], sl[j] = sl[j], sl[i]`. -/
def swapL {T : Type} [Inhabited T] (l : List T) (i j : Nat) : List T :=
  (l.set i (l.getD j default)).set j (l.getD i default)

/-- Loop body of source `bubble`, with explicit fuel (the wrapper passes
`i + 1`, which suffices because the index strictly decreases): while `i > 0`
and `mul * cmp(sl[i], sl[parent]) < 0`, swap with the parent and continue. -/
def bubbleAux {T : Type} [Inhabited T] (mom : MinOrMax) (cmp : T → T → Int) :
    Nat → List T → Nat → List T
  | 0, l, _ => l
  | _fuel + 1, l, 0 => l
  | fuel + 1, l, i + 1 =>
    let pi := parentIndex (i + 1)
    if 0 ≤ mom.mul * cmp (l.getD (i + 1) default) (l.getD pi default) then l
    else bubbleAux mom cmp fuel (swapL l (i + 1) pi) pi

/-- Source `bubble` (sift-up) starting at index `i`. -/
def bubble {T : Type} [Inhabited T] (mom : MinOrMax) (cmp : T → T → Int)
    (l : List T) (i : Nat) : List T :=
  bubbleAux mom cmp (i + 1) l i

/-- One iteration decision of source `pushRootHoleDownToLeaf` at hole `i`:
`none` when there is no left child (the loop breaks); otherwise the child the
hole moves to.  The source branch takes the left child when the right child is
out of range or `mul*cmp(sl[rci], sl[lci]) > 0`, else the right child. -/
def holeStep {T : Type} [Inhabited T] (mom : MinOrMax) (cmp : T → T → Int)
    (l : List T) (i : Nat) : Option Nat :=
  if l.length ≤ leftChildIndex i then none
  else if l.length ≤ rightChildIndex i ∨
      0 < mom.mul * cmp (l.getD (rightChildIndex i) default)
        (l.getD (leftChildIndex i) default) then
    some (leftChildIndex i)
  else some (rightChildIndex i)

/-- Loop of source `pushRootHoleDownToLeaf`, with explicit fuel (the wrapper
passes the slice length, which suffices because the hole index strictly
increases and stays below the length).  Each step copies the chosen child's
value into the hole and moves the hole to that child. -/
def holeAux {T : Type} [Inhabited T] (mom : MinOrMax) (cmp : T → T → Int) :
    Nat → List T → Nat → List T × Nat
  | 0, l, i => (l, i)
  | fuel + 1, l, i =>
    match holeStep mom cmp l i with
    | none => (l, i)
    | some c => holeAux mom cmp fuel (l.set i (l.getD c default)) c

/-- Source `pushRootHoleDownToLeaf`: descend a hole from the root to a leaf,
returning the updated slice contents and the final hole index. -/
def pushRootHoleDownToLeaf {T : Type} [Inhabited T] (mom : MinOrMax)
    (cmp : T → T → Int) (l : List T) : List T × Nat :=
  holeAux mom cmp l.length l 0

/-- The heap container (source `Heap[T, MOM]`): a Go slice.  The polarity is a
type-level parameter in the source; here it is the `mom` argument of each
operation. -/
structure Heap (T : Type) where
  sl : GoSlice T
deriving DecidableEq

/-- The zero value `var h Heap[T, MOM]`: a nil backing slice. -/
def emptyHeap (T : Type) : Heap T := ⟨nilSlice T⟩

/-- Source `Len`. -/
def Len {T : Type} (heap : Heap T) : Nat := heap.sl.data.length

/-- Source `push`: append the element, then bubble up from the last index. -/
def push {T : Type} [Inhabited T] (mom : MinOrMax) (cmp : T → T → Int)
    (heap : Heap T) (elem : T) : Heap T :=
  let sl1 := goAppend heap.sl elem
  ⟨{ sl1 with data := bubble mom cmp sl1.data (sl1.data.length - 1) }⟩

/-- Source `pop`: on a non-empty heap, save the root, push a hole down to a
leaf, then either just shrink (hole at the last slot) or move the displaced
last element into the hole, shrink, and bubble it up.  On an empty heap it
returns the zero value and `false` and leaves the heap unchanged. -/
def pop {T : Type} [Inhabited T] (mom : MinOrMax) (cmp : T → T → Int)
    (heap : Heap T) : (T × Bool) × Heap T :=
  if heap.sl.data.length = 0 then ((default, false), heap)
  else
    let val := heap.sl.data.getD 0 default
    let li := pushRootHoleDownToLeaf mom cmp heap.sl.data
    let sl1 : GoSlice T := { heap.sl with data := li.1 }
    if li.2 + 1 = li.1.length then ((val, true), ⟨shrink sl1⟩)
    else
      let displaced := li.1.getD (li.1.length - 1) default
      let sl2 := shrink sl1
      ((val, true), ⟨{ sl2 with data := bubble mom cmp (sl2.data.set li.2 displaced) li.2 }⟩)

/-- Source `Peek`: read the root without mutation (the function never writes to
the backing slice, so it is embedded as a pure reader). -/
def Peek {T : Type} [Inhabited T] (heap : Heap T) : T × Bool :=
  if heap.sl.data.length = 0 then (default, false)
  else (heap.sl.data.getD 0 default, true)

/-- Source `Clear`: `heap.sl = nil`. -/
def Clear {T : Type} (_heap : Heap T) : Heap T := ⟨nilSlice T⟩

/-- Source `Copy`: `make([]T, len)` (a non-nil store of capacity exactly the
length, even when the length is zero) followed by `copy`. -/
def Copy {T : Type} (heap : Heap T) : Heap T :=
  ⟨⟨heap.sl.data, heap.sl.data.length, false⟩⟩

/-- Compaction pass of source `filter`: the kept elements, in visitation
order.  Visitation stops after the element whose callback result signals
`Break`; that element is kept according to its own verdict. -/
def filterLoop {T : Type} (f : T → Bool × BreakOrContinue) : List T → List T
  | [] => []
  | x :: xs =>
    let r := f x
    let rest := match r.2 with
      | .Break => []
      | .Continue => filterLoop f xs
    if r.1 then x :: rest else rest

/-- The sequence of elements source `filter` feeds to the callback, in order. -/
def filterVisits {T : Type} (f : T → Bool × BreakOrContinue) : List T → List T
  | [] => []
  | x :: xs =>
    x :: (match (f x).2 with
      | .Break => []
      | .Continue => filterVisits f xs)

/-- Source `filter`: compact the kept elements to the front (the first kept
element lands at index 0, so `first` is 0 whenever anything is kept), truncate
to the kept prefix, re-truncate to `first`, and re-`push` every kept element in
visitation order.  The truncations keep the backing store (capacity and
nil-ness), and all re-pushes stay within the old capacity. -/
def filter {T : Type} [Inhabited T] (mom : MinOrMax) (cmp : T → T → Int)
    (heap : Heap T) (f : T → Bool × BreakOrContinue) : Heap T :=
  let kept := filterLoop f heap.sl.data
  kept.foldl (fun h e => push mom cmp h e) ⟨goTake heap.sl 0⟩

/-- Source `Push` (the `constraints.Ordered` path). -/
def Push {T : Type} [Inhabited T] [LinearOrder T] (mom : MinOrMax)
    (heap : Heap T) (elem : T) : Heap T :=
  push mom cmpOrdered heap elem

/-- Source `PushOrderable` (the attached-comparator path). -/
def PushOrderable {T : Type} [Inhabited T] (mom : MinOrMax)
    (cmp : T → T → Int) (heap : Heap T) (elem : T) : Heap T :=
  push mom cmp heap elem

/-- Source `Pop` (the `constraints.Ordered` path). -/
def Pop {T : Type} [Inhabited T] [LinearOrder T] (mom : MinOrMax)
    (heap : Heap T) : (T × Bool) × Heap T :=
  pop mom cmpOrdered heap

/-- Source `PopOrderable` (the attached-comparator path). -/
def PopOrderable {T : Type} [Inhabited T] (mom : MinOrMax)
    (cmp : T → T → Int) (heap : Heap T) : (T × Bool) × Heap T :=
  pop mom cmp heap

/-- Source `Filter` (the `constraints.Ordered` path). -/
def Filter {T : Type} [Inhabited T] [LinearOrder T] (mom : MinOrMax)
    (heap : Heap T) (f : T → Bool × BreakOrContinue) : Heap T :=
  filter mom cmpOrdered heap f

/-- Source `FilterOrderable` (the attached-comparator path). -/
def FilterOrderable {T : Type} [Inhabited T] (mom : MinOrMax)
    (cmp : T → T → Int) (heap : Heap T) (f : T → Bool × BreakOrContinue) : Heap T :=
  filter mom cmp heap f

/-- Modelled from the spec: the classical sift-down step used by `FromSlice`
(§4.7 of the spec).  `FromSlice` is exercised by the repository's tests and
benchmarks but its implementation file is not under src/.  At node `j`: if
there is no left child, stop; otherwise pick the better child under the
polarity-adjusted comparator (the right child when it compares `<= 0` against
the left), and if that child is strictly better than the node, swap and
continue from the child.  Fuel `l.length` suffices since the node index
strictly increases below the length. -/
def siftDownAux {T : Type} [Inhabited T] (mom : MinOrMax) (cmp : T → T → Int) :
    Nat → List T → Nat → List T
  | 0, l, _ => l
  | fuel + 1, l, j =>
    if l.length ≤ leftChildIndex j then l
    else
      let b :=
        if l.length ≤ rightChildIndex j then leftChildIndex j
        else if mom.mul * cmp (l.getD (rightChildIndex j) default)
            (l.getD (leftChildIndex j) default) ≤ 0 then rightChildIndex j
        else leftChildIndex j
      if mom.mul * cmp (l.getD b default) (l.getD j default) < 0 then
        siftDownAux mom cmp fuel (swapL l j b) b
      else l

/-- Modelled from the spec: sift node `j` down into its subtree (§4.7). -/
def siftDown {T : Type} [Inhabited T] (mom : MinOrMax) (cmp : T → T → Int)
    (l : List T) (j : Nat) : List T :=
  siftDownAux mom cmp l.length l j

/-- Modelled from the spec: bottom-up heapify pass of `FromSlice` (§4.7),
sifting nodes `j-1, j-2, ..., 0` down, i.e. from the last internal node
(`len/2 - 1`) to the root when started at `len/2`. -/
def heapifyFrom {T : Type} [Inhabited T] (mom : MinOrMax) (cmp : T → T → Int)
    (l : List T) : Nat → List T
  | 0 => l
  | j + 1 => heapifyFrom mom cmp (siftDown mom cmp l j) j

/-- Modelled from the spec: `FromSlice` / `FromSliceOrderable` (§4.7), whose
implementation file is not under src/.  The input sequence becomes the backing
storage and is heapified bottom-up; an empty input yields the canonical empty
heap (the repository's `TestFromSliceEmpty` requires a nil backing slice). -/
def fromSlice {T : Type} [Inhabited T] (mom : MinOrMax) (cmp : T → T → Int)
    (s : List T) : Heap T :=
  if s.length = 0 then ⟨nilSlice T⟩
  else ⟨⟨heapifyFrom mom cmp s (s.length / 2), s.length, false⟩⟩

/-- Modelled from the spec: `FromSlice` (the `constraints.Ordered` path). -/
def FromSlice {T : Type} [Inhabited T] [LinearOrder T] (mom : MinOrMax)
    (s : List T) : Heap T :=
  fromSlice mom cmpOrdered s

/-- Modelled from the spec: `FromSliceOrderable` (attached-comparator path). -/
def FromSliceOrderable {T : Type} [Inhabited T] (mom : MinOrMax)
    (cmp : T → T → Int) (s : List T) : Heap T :=
  fromSlice mom cmp s

/-- Push a list of elements onto a heap, left to right. -/
def pushAll {T : Type} [Inhabited T] (mom : MinOrMax) (cmp : T → T → Int)
    (heap : Heap T) (elems : List T) : Heap T :=
  elems.foldl (fun h e => push mom cmp h e) heap

/-- Pop up to `fuel` times, collecting the popped values until `pop` reports
an empty heap. -/
def drain {T : Type} [Inhabited T] (mom : MinOrMax) (cmp : T → T → Int) :
    Nat → Heap T → List T
  | 0, _ => []
  | fuel + 1, heap =>
    let r := pop mom cmp heap
    if r.1.2 then r.1.1 :: drain mom cmp fuel r.2 else []

/-- Pop until the heap is empty, collecting the popped values. -/
def drainAll {T : Type} [Inhabited T] (mom : MinOrMax) (cmp : T → T → Int)
    (heap : Heap T) : List T :=
  drain mom cmp (Len heap) heap

/-- An operation of the common push/pop interface, for refinement against the
naive reference structure. -/
inductive HeapOp (T : Type) : Type
  | pushOp (e : T)
  | popOp

/-- Run one operation on the heap. -/
def stepHeap {T : Type} [Inhabited T] (mom : MinOrMax) (cmp : T → T → Int)
    (heap : Heap T) : HeapOp T → Heap T
  | .pushOp e => push mom cmp heap e
  | .popOp => (pop mom cmp heap).2

/-- Run a sequence of operations on the heap, starting from `heap`. -/
def runHeap {T : Type} [Inhabited T] (mom : MinOrMax) (cmp : T → T → Int)
    (heap : Heap T) : List (HeapOp T) → Heap T
  | [] => heap
  | op :: rest => runHeap mom cmp (stepHeap mom cmp heap op) rest

/-- The polarity-adjusted "not worse" order used throughout the package:
`sign(Order) * cmp(a, b) <= 0`. -/
def ple {T : Type} (mom : MinOrMax) (cmp : T → T → Int) (a b : T) : Prop :=
  mom.mul * cmp a b ≤ 0

instance {T : Type} (mom : MinOrMax) (cmp : T → T → Int) :
    DecidableRel (ple mom cmp) :=
  fun a b => inferInstanceAs (Decidable (mom.mul * cmp a b ≤ 0))

/-- One step of the naive reference structure of the spec (§8): a sequence
kept sorted by the polarity-adjusted order, with linear insertion; removal
takes the head (the extreme element). -/
def refStep {T : Type} (mom : MinOrMax) (cmp : T → T → Int) (s : List T) :
    HeapOp T → List T
  | .pushOp e => s.orderedInsert (ple mom cmp) e
  | .popOp => s.tail

/-- Run a sequence of operations on the naive reference structure. -/
def refRun {T : Type} (mom : MinOrMax) (cmp : T → T → Int) (s : List T) :
    List (HeapOp T) → List T
  | [] => s
  | op :: rest => refRun mom cmp (refStep mom cmp s op) rest

/-- Heaps reachable from the empty heap by the public mutating operations
`Push`/`PushOrderable`, `Pop`/`PopOrderable`, `Filter`/`FilterOrderable` and
`Clear` (each embedded operation is parametric in the comparator, covering
both dispatch paths). -/
inductive Reach {T : Type} [Inhabited T] (mom : MinOrMax) (cmp : T → T → Int) :
    Heap T → Prop
  | empty : Reach mom cmp (emptyHeap T)
  | pushR {h : Heap T} (e : T) : Reach mom cmp h → Reach mom cmp (push mom cmp h e)
  | popR {h : Heap T} : Reach mom cmp h → Reach mom cmp (pop mom cmp h).2
  | filterR {h : Heap T} (f : T → Bool × BreakOrContinue) :
      Reach mom cmp h → Reach mom cmp (filter mom cmp h f)
  | clearR {h : Heap T} : Reach mom cmp h → Reach mom cmp (Clear h)

/-- Heap edges whose child index is at least... more precisely: every
parent/child pair with parent index at least `s` is ordered by `ple`.  `s = 0`
is the full heap property; positive `s` is the partially-heapified state of the
bottom-up builder. -/
def HeapFrom {T : Type} [Inhabited T] (mom : MinOrMax) (cmp : T → T → Int)
    (l : List T) (s : Nat) : Prop :=
  ∀ c, c < l.length → 0 < c → s ≤ (c - 1) / 2 →
    mom.mul * cmp (l.getD ((c - 1) / 2) default) (l.getD c default) ≤ 0

/-- The heap property exactly as the spec states it: for every index `i` with
a child index `c < len(storage)`, `sign(Order) * cmp(storage[i], storage[c]) <= 0`. -/
def HeapProp {T : Type} [Inhabited T] (mom : MinOrMax) (cmp : T → T → Int)
    (l : List T) : Prop :=
  ∀ i, i < l.length → ∀ c, c < l.length → (c = leftChildIndex i ∨ c = rightChildIndex i) →
    mom.mul * cmp (l.getD i default) (l.getD c default) ≤ 0

instance {T : Type} [Inhabited T] (mom : MinOrMax) (cmp : T → T → Int)
    (l : List T) (s : Nat) : Decidable (HeapFrom mom cmp l s) :=
  inferInstanceAs (Decidable (∀ c, c < l.length → _))

instance {T : Type} [Inhabited T] (mom : MinOrMax) (cmp : T → T → Int)
    (l : List T) : Decidable (HeapProp mom cmp l) :=
  inferInstanceAs (Decidable (∀ i, i < l.length → ∀ c, c < l.length → _))

/-- The comparator laws the package relies on (§4.1, §7 of the spec: the
comparator must induce a single total order; an inconsistent comparator is a
caller contract violation).  `flip` says the polarity-adjusted comparison is
antisymmetric in sign; `le_trans` says it is transitive.  Both hold for
`cmpOrdered` on any linearly ordered type and for any lawful `Cmp` method. -/
structure LawfulCmp {T : Type} (mom : MinOrMax) (cmp : T → T → Int) : Prop where
  flip : ∀ a b, 0 ≤ mom.mul * cmp a b → mom.mul * cmp b a ≤ 0
  le_trans : ∀ a b c, mom.mul * cmp a b ≤ 0 → mom.mul * cmp b c ≤ 0 →
    mom.mul * cmp a c ≤ 0

/-- Well-formedness of a Go slice value: the length never exceeds the
capacity, and the nil slice has no elements and no capacity. -/
def GoSlice.WF {T : Type} (a : GoSlice T) : Prop :=
  a.data.length ≤ a.cap ∧ (a.isNil = true → a.data = [] ∧ a.cap = 0)

/-! ## List index and multiset helpers -/

theorem getD_set_self {T : Type} {l : List T} {i : Nat} (h : i < l.length)
    (v d : T) : (l.set i v).getD i d = v := by
  rw [List.getD_eq_getElem?_getD, List.getElem?_set_self h]
  rfl

theorem getD_set_ne {T : Type} {l : List T} {i j : Nat} (h : i ≠ j) (v d : T) :
    (l.set i v).getD j d = l.getD j d := by
  rw [List.getD_eq_getElem?_getD, List.getElem?_set_ne h,
    ← List.getD_eq_getElem?_getD]

theorem getD_take {T : Type} {l : List T} {n j : Nat} (h : j < n) (d : T) :
    (l.take n).getD j d = l.getD j d := by
  rw [List.getD_eq_getElem?_getD, List.getElem?_take, if_pos h,
    ← List.getD_eq_getElem?_getD]

theorem coe_set_add {T : Type} {l : List T} {i : Nat} (h : i < l.length)
    (v d : T) : (↑(l.set i v) : Multiset T) + {l.getD i d} = ↑l + {v} := by
  rw [List.set_eq_take_append_cons_drop, if_pos h, List.getD_eq_getElem l d h]
  conv_rhs => rw [← List.take_append_drop i l, ← List.getElem_cons_drop l i h]
  rw [← Multiset.coe_add, ← Multiset.coe_add, ← Multiset.cons_coe,
    ← Multiset.cons_coe, ← Multiset.singleton_add, ← Multiset.singleton_add]
  abel

theorem coe_dropLast_add {T : Type} {l : List T} (h : 0 < l.length) (d : T) :
    (↑(l.take (l.length - 1)) : Multiset T) + {l.getD (l.length - 1) d} = ↑l := by
  have hne : l ≠ [] := by
    cases l with
    | nil => simp at h
    | cons a t => simp
  conv_rhs => rw [← List.dropLast_concat_getLast hne]
  rw [List.getLast_eq_getElem, List.dropLast_eq_take,
    List.getD_eq_getElem l d (by omega)]
  rw [← Multiset.coe_add]
  rfl

/-! ## Swap helpers -/

theorem swapL_length {T : Type} [Inhabited T] (l : List T) (i j : Nat) :
    (swapL l i j).length = l.length := by
  simp [swapL]

theorem swapL_getD_fst {T : Type} [Inhabited T] {l : List T} {i j : Nat}
    (hi : i < l.length) (hne : j ≠ i) :
    (swapL l i j).getD i default = l.getD j default := by
  rw [swapL, getD_set_ne hne, getD_set_self (by simpa using hi)]

theorem swapL_getD_snd {T : Type} [Inhabited T] {l : List T} {i j : Nat}
    (hj : j < l.length) : (swapL l i j).getD j default = l.getD i default := by
  rw [swapL, getD_set_self (by simpa using hj)]

theorem swapL_getD_other {T : Type} [Inhabited T] {l : List T} {i j k : Nat}
    (h1 : i ≠ k) (h2 : j ≠ k) :
    (swapL l i j).getD k default = l.getD k default := by
  rw [swapL, getD_set_ne h2, getD_set_ne h1]

theorem coe_swapL {T : Type} [Inhabited T] {l : List T} {i j : Nat}
    (hi : i < l.length) (hj : j < l.length) :
    (↑(swapL l i j) : Multiset T) = ↑l := by
  have hval : (l.set i (l.getD j default)).getD j default = l.getD j default := by
    rcases eq_or_ne i j with h | h
    · subst h; exact getD_set_self hi _ _
    · exact getD_set_ne h _ _
  have h2 : (↑(swapL l i j) : Multiset T) + {(l.set i (l.getD j default)).getD j default} =
      ↑(l.set i (l.getD j default)) + {l.getD i default} :=
    coe_set_add (by simpa using hj) _ _
  have h1 : (↑(l.set i (l.getD j default)) : Multiset T) + {l.getD i default} =
      ↑l + {l.getD j default} := coe_set_add hi _ _
  rw [hval] at h2
  exact add_right_cancel (h2.trans h1)

/-! ## Index arithmetic -/

theorem child_iff {i c : Nat} :
    (c = leftChildIndex i ∨ c = rightChildIndex i) ↔ (0 < c ∧ (c - 1) / 2 = i) := by
  unfold leftChildIndex rightChildIndex
  omega

theorem parentIndex_lt {c : Nat} (h : 0 < c) : (c - 1) / 2 < c := by
  omega

/-! ## Comparator laws -/

theorem LawfulCmp.refl {T : Type} {mom : MinOrMax} {cmp : T → T → Int}
    (L : LawfulCmp mom cmp) (a : T) : mom.mul * cmp a a ≤ 0 := by
  rcases le_or_lt (mom.mul * cmp a a) 0 with h | h
  · exact h
  · exact L.flip a a h.le

theorem LawfulCmp.total {T : Type} {mom : MinOrMax} {cmp : T → T → Int}
    (L : LawfulCmp mom cmp) {a b : T} (h : ¬ mom.mul * cmp a b ≤ 0) :
    mom.mul * cmp b a ≤ 0 :=
  L.flip a b (by omega)

theorem cmpOrdered_nonpos_iff {T : Type} [LinearOrder T] {a b : T} :
    cmpOrdered a b ≤ 0 ↔ a ≤ b := by
  unfold cmpOrdered
  rcases lt_trichotomy a b with h | h | h
  · rw [if_pos h]
    simp [h.le]
  · subst h
    simp
  · rw [if_neg (not_lt.mpr h.le), if_pos h]
    simp [not_le.mpr h]

theorem cmpOrdered_nonneg_iff {T : Type} [LinearOrder T] {a b : T} :
    0 ≤ cmpOrdered a b ↔ b ≤ a := by
  unfold cmpOrdered
  rcases lt_trichotomy a b with h | h | h
  · rw [if_pos h]
    simp [not_le.mpr h]
  · subst h
    simp
  · rw [if_neg (not_lt.mpr h.le), if_pos h]
    simp [h.le]

theorem min_mul_eq : MinOrMax.Min.mul = 1 := rfl

theorem max_mul_eq : MinOrMax.Max.mul = -1 := rfl

theorem ple_min_cmpOrdered {T : Type} [LinearOrder T] {a b : T} :
    ple .Min (cmpOrdered (T := T)) a b ↔ a ≤ b := by
  rw [ple, min_mul_eq, one_mul]
  exact cmpOrdered_nonpos_iff

theorem ple_max_cmpOrdered {T : Type} [LinearOrder T] {a b : T} :
    ple .Max (cmpOrdered (T := T)) a b ↔ b ≤ a := by
  rw [ple, max_mul_eq]
  constructor
  · intro h
    exact cmpOrdered_nonneg_iff.mp (by omega)
  · intro h
    have := cmpOrdered_nonneg_iff.mpr h
    omega

theorem lawful_cmpOrdered {T : Type} [LinearOrder T] (mom : MinOrMax) :
    LawfulCmp mom (cmpOrdered (T := T)) := by
  cases mom
  · constructor
    · intro a b h
      rw [min_mul_eq, one_mul] at h ⊢
      exact cmpOrdered_nonpos_iff.mpr (cmpOrdered_nonneg_iff.mp h)
    · intro a b c h1 h2
      rw [min_mul_eq, one_mul] at h1 h2 ⊢
      exact cmpOrdered_nonpos_iff.mpr
        (le_trans (cmpOrdered_nonpos_iff.mp h1) (cmpOrdered_nonpos_iff.mp h2))
  · constructor
    · intro a b h
      rw [max_mul_eq] at h ⊢
      have hba : a ≤ b := cmpOrdered_nonpos_iff.mp (by omega)
      have : 0 ≤ cmpOrdered b a := (cmpOrdered_nonneg_iff (a := b) (b := a)).mpr hba
      omega
    · intro a b c h1 h2
      rw [max_mul_eq] at h1 h2 ⊢
      have hba : b ≤ a := cmpOrdered_nonneg_iff.mp (by omega)
      have hcb : c ≤ b := cmpOrdered_nonneg_iff.mp (by omega)
      have : 0 ≤ cmpOrdered a c :=
        (cmpOrdered_nonneg_iff (a := a) (b := c)).mpr (le_trans hcb hba)
      omega

theorem antisymm_cmpOrdered {T : Type} [LinearOrder T] (mom : MinOrMax)
    {a b : T} (h1 : ple mom cmpOrdered a b) (h2 : ple mom cmpOrdered b a) :
    a = b := by
  cases mom
  · exact le_antisymm (ple_min_cmpOrdered.mp h1) (ple_min_cmpOrdered.mp h2)
  · exact le_antisymm (ple_max_cmpOrdered.mp h2) (ple_max_cmpOrdered.mp h1)

/-! ## Heap property forms -/

theorem heapProp_iff_heapFrom {T : Type} [Inhabited T] {mom : MinOrMax}
    {cmp : T → T → Int} {l : List T} :
    HeapProp mom cmp l ↔ HeapFrom mom cmp l 0 := by
  constructor
  · intro H c hc hc0 _
    have hp : (c - 1) / 2 < l.length := lt_trans (parentIndex_lt hc0) hc
    exact H _ hp c hc (child_iff.mpr ⟨hc0, rfl⟩)
  · intro H i _ c hc hchild
    rcases child_iff.mp hchild with ⟨hc0, hpar⟩
    have := H c hc hc0 (Nat.zero_le _)
    rwa [hpar] at this

/-! ## Bubble (sift-up) lemmas -/

theorem bubbleAux_length {T : Type} [Inhabited T] (mom : MinOrMax)
    (cmp : T → T → Int) :
    ∀ (fuel : Nat) (l : List T) (i : Nat),
      (bubbleAux mom cmp fuel l i).length = l.length := by
  intro fuel
  induction fuel with
  | zero => intro l i; rfl
  | succ fuel ih =>
    intro l i
    cases i with
    | zero => rfl
    | succ k =>
      simp only [bubbleAux]
      split
      · rfl
      · rw [ih, swapL_length]

theorem bubbleAux_coe {T : Type} [Inhabited T] (mom : MinOrMax)
    (cmp : T → T → Int) :
    ∀ (fuel : Nat) (l : List T) (i : Nat), i < l.length →
      (↑(bubbleAux mom cmp fuel l i) : Multiset T) = ↑l := by
  intro fuel
  induction fuel with
  | zero => intro l i _; rfl
  | succ fuel ih =>
    intro l i hi
    cases i with
    | zero => rfl
    | succ k =>
      simp only [bubbleAux]
      split
      · rfl
      · have hpi : parentIndex (k + 1) < l.length := by
          unfold parentIndex
          omega
        rw [ih _ _ (by rw [swapL_length]; exact hpi), coe_swapL hi hpi]

theorem bubbleAux_heapFrom {T : Type} [Inhabited T] {mom : MinOrMax}
    {cmp : T → T → Int} (L : LawfulCmp mom cmp) :
    ∀ (fuel : Nat) (l : List T) (i : Nat), i < fuel → i < l.length →
      (∀ c, c < l.length → 0 < c → c ≠ i →
        mom.mul * cmp (l.getD ((c - 1) / 2) default) (l.getD c default) ≤ 0) →
      (∀ c, c < l.length → 0 < c → (c - 1) / 2 = i → 0 < i →
        mom.mul * cmp (l.getD ((i - 1) / 2) default) (l.getD c default) ≤ 0) →
      HeapFrom mom cmp (bubbleAux mom cmp fuel l i) 0 := by
  intro fuel
  induction fuel with
  | zero => intro l i hfuel; omega
  | succ fuel ih =>
    intro l i hfuel hlen hA hB
    cases i with
    | zero =>
      intro c hc hc0 _
      exact hA c hc hc0 (by omega)
    | succ k =>
      simp only [bubbleAux]
      split
      · -- the loop stops: the new element fits under its parent
        rename 0 ≤ _ => hstop
        intro c hc hc0 _
        by_cases hci : c = k + 1
        · subst hci
          have := L.flip _ _ hstop
          simpa [parentIndex] using this
        · exact hA c hc hc0 hci
      · -- swap with the parent and continue from the parent index
        rename ¬ 0 ≤ _ => hgo
        have hlt : mom.mul * cmp (l.getD (k + 1) default)
            (l.getD (parentIndex (k + 1)) default) ≤ 0 := by omega
        have hpk : parentIndex (k + 1) < k + 1 := by
          unfold parentIndex
          omega
        have hpi_len : parentIndex (k + 1) < l.length := lt_trans hpk hlen
        have vi : (swapL l (k + 1) (parentIndex (k + 1))).getD (k + 1) default =
            l.getD (parentIndex (k + 1)) default :=
          swapL_getD_fst hlen (by omega)
        have vpi : (swapL l (k + 1) (parentIndex (k + 1))).getD
            (parentIndex (k + 1)) default = l.getD (k + 1) default :=
          swapL_getD_snd hpi_len
        have vother : ∀ m, m ≠ k + 1 → m ≠ parentIndex (k + 1) →
            (swapL l (k + 1) (parentIndex (k + 1))).getD m default =
              l.getD m default := by
          intro m h1 h2
          exact swapL_getD_other (by omega) (by omega)
        apply ih
        · omega
        · rw [swapL_length]
          exact hpi_len
        · -- edges other than the one into the parent index hold after the swap
          intro c hc hc0 hcpi
          rw [swapL_length] at hc
          by_cases hci : c = k + 1
          · subst hci
            have hpar : (k + 1 - 1) / 2 = parentIndex (k + 1) := rfl
            rw [hpar, vpi, vi]
            exact hlt
          · by_cases hpc : (c - 1) / 2 = k + 1
            · rw [hpc, vi, vother c hci hcpi]
              have := hB c hc hc0 hpc (by omega)
              simpa [parentIndex] using this
            · by_cases hppi : (c - 1) / 2 = parentIndex (k + 1)
              · rw [hppi, vpi, vother c hci hcpi]
                have h1 := hA c hc hc0 hci
                rw [hppi] at h1
                exact L.le_trans _ _ _ hlt h1
              · rw [vother _ hpc hppi, vother c hci hcpi]
                exact hA c hc hc0 hci
        · -- children of the parent index stay under the grandparent
          intro c hc hc0 hcp hpi0
          rw [swapL_length] at hc
          have hgp1 : (parentIndex (k + 1) - 1) / 2 ≠ k + 1 := by
            have := parentIndex_lt hpi0
            omega
          have hgp2 : (parentIndex (k + 1) - 1) / 2 ≠ parentIndex (k + 1) := by
            have := parentIndex_lt hpi0
            omega
          rw [vother _ hgp1 hgp2]
          have hApi : mom.mul * cmp
              (l.getD ((parentIndex (k + 1) - 1) / 2) default)
              (l.getD (parentIndex (k + 1)) default) ≤ 0 :=
            hA (parentIndex (k + 1)) hpi_len hpi0 (by omega)
          by_cases hci : c = k + 1
          · subst hci
            rw [vi]
            exact hApi
          · rw [vother c hci (by omega)]
            have h1 := hA c hc hc0 hci
            rw [hcp] at h1
            exact L.le_trans _ _ _ hApi h1

theorem goAppend_data {T : Type} (a : GoSlice T) (x : T) :
    (goAppend a x).data = a.data ++ [x] := by
  unfold goAppend
  split <;> rfl

theorem push_data_heapFrom {T : Type} [Inhabited T] {mom : MinOrMax}
    {cmp : T → T → Int} (L : LawfulCmp mom cmp) {h : Heap T}
    (H : HeapFrom mom cmp h.sl.data 0) (e : T) :
    HeapFrom mom cmp (push mom cmp h e).sl.data 0 := by
  show HeapFrom mom cmp
    (bubble mom cmp (goAppend h.sl e).data ((goAppend h.sl e).data.length - 1)) 0
  rw [goAppend_data, bubble]
  have hlen : (h.sl.data ++ [e]).length = h.sl.data.length + 1 := by simp
  rw [hlen]
  apply bubbleAux_heapFrom L
  · omega
  · omega
  · intro c hc hc0 hci
    rw [hlen] at hc
    have hc' : c < h.sl.data.length := by omega
    have hp' : (c - 1) / 2 < h.sl.data.length := lt_trans (parentIndex_lt hc0) hc'
    rw [List.getD_append _ _ _ _ hc', List.getD_append _ _ _ _ hp']
    exact H c hc' hc0 (Nat.zero_le _)
  · intro c hc hc0 hcp _
    rw [hlen] at hc
    omega

theorem push_data_length {T : Type} [Inhabited T] (mom : MinOrMax)
    (cmp : T → T → Int) (h : Heap T) (e : T) :
    (push mom cmp h e).sl.data.length = h.sl.data.length + 1 := by
  show (bubble mom cmp (goAppend h.sl e).data _).length = _
  rw [bubble, bubbleAux_length, goAppend_data]
  simp

theorem push_data_coe {T : Type} [Inhabited T] (mom : MinOrMax)
    (cmp : T → T → Int) (h : Heap T) (e : T) :
    (↑(push mom cmp h e).sl.data : Multiset T) = ↑h.sl.data + {e} := by
  show (↑(bubble mom cmp (goAppend h.sl e).data _) : Multiset T) = _
  rw [bubble, goAppend_data, bubbleAux_coe]
  · rw [← Multiset.coe_add]
    rfl
  · simp

/-! ## Hole descent (pop) lemmas -/

theorem holeStep_none_iff {T : Type} [Inhabited T] {mom : MinOrMax}
    {cmp : T → T → Int} {l : List T} {i : Nat} :
    holeStep mom cmp l i = none ↔ l.length ≤ leftChildIndex i := by
  unfold holeStep
  split_ifs with h1 h2 <;> simp_all

theorem holeStep_some_spec {T : Type} [Inhabited T] {mom : MinOrMax}
    {cmp : T → T → Int} (L : LawfulCmp mom cmp) {l : List T} {i c : Nat}
    (h : holeStep mom cmp l i = some c) :
    leftChildIndex i < l.length ∧ c < l.length ∧ i < c ∧
      (c = leftChildIndex i ∨ c = rightChildIndex i) ∧
      (∀ d, d < l.length → (d = leftChildIndex i ∨ d = rightChildIndex i) →
        mom.mul * cmp (l.getD c default) (l.getD d default) ≤ 0) := by
  unfold holeStep at h
  split_ifs at h with h1 h2
  · -- the left child is taken
    have hc : c = leftChildIndex i := by
      simpa using h.symm
    subst hc
    have hlci : leftChildIndex i < l.length := by omega
    refine ⟨hlci, hlci, by unfold leftChildIndex; omega, Or.inl rfl, ?_⟩
    intro d hd hchild
    rcases hchild with hdl | hdr
    · subst hdl
      exact L.refl _
    · subst hdr
      rcases h2 with hout | hcmp
      · omega
      · exact L.flip _ _ hcmp.le
  · -- the right child is taken
    have hc : c = rightChildIndex i := by
      simpa using h.symm
    subst hc
    push_neg at h2
    refine ⟨by omega, by omega, by unfold rightChildIndex; omega, Or.inr rfl, ?_⟩
    intro d hd hchild
    rcases hchild with hdl | hdr
    · subst hdl
      exact h2.2
    · subst hdr
      exact L.refl _

theorem holeAux_spec {T : Type} [Inhabited T] {mom : MinOrMax}
    {cmp : T → T → Int} (L : LawfulCmp mom cmp) :
    ∀ (fuel : Nat) (l : List T) (i : Nat), l.length ≤ fuel + i → i < l.length →
      HeapFrom mom cmp l 0 →
      (holeAux mom cmp fuel l i).1.length = l.length ∧
      i ≤ (holeAux mom cmp fuel l i).2 ∧
      (holeAux mom cmp fuel l i).2 < l.length ∧
      l.length ≤ leftChildIndex (holeAux mom cmp fuel l i).2 ∧
      HeapFrom mom cmp (holeAux mom cmp fuel l i).1 0 ∧
      (↑(holeAux mom cmp fuel l i).1 : Multiset T) + {l.getD i default} =
        ↑l + {(holeAux mom cmp fuel l i).1.getD (holeAux mom cmp fuel l i).2 default} := by
  intro fuel
  induction fuel with
  | zero => intro l i hfuel hlen; omega
  | succ fuel ih =>
    intro l i hfuel hlen H
    rcases hstep : holeStep mom cmp l i with _ | c
    · -- no left child: the descent stops here
      have hstop := holeStep_none_iff.mp hstep
      have hred : holeAux mom cmp (fuel + 1) l i = (l, i) := by
        simp only [holeAux, hstep]
      rw [hred]
      exact ⟨rfl, le_refl i, hlen, hstop, H, rfl⟩
    · obtain ⟨hlci, hc, hic, hchild, hbest⟩ := holeStep_some_spec L hstep
      have hpar : (c - 1) / 2 = i := by
        unfold leftChildIndex rightChildIndex at hchild
        omega
      have hc0 : 0 < c := by omega
      -- the promoted child keeps the intermediate state a full heap
      have H2 : HeapFrom mom cmp (l.set i (l.getD c default)) 0 := by
        intro d hd hd0 _
        rw [List.length_set] at hd
        by_cases hdi : d = i
        · subst hdi
          have hpp : d ≠ (d - 1) / 2 := by omega
          rw [getD_set_ne hpp, getD_set_self hlen]
          have e1 : mom.mul * cmp (l.getD ((d - 1) / 2) default) (l.getD d default) ≤ 0 :=
            H d hd hd0 (Nat.zero_le _)
          have e2 : mom.mul * cmp (l.getD d default) (l.getD c default) ≤ 0 := by
            have := H c hc hc0 (Nat.zero_le _)
            rwa [hpar] at this
          exact L.le_trans _ _ _ e1 e2
        · rw [getD_set_ne (show i ≠ d from fun h => hdi h.symm)]
          by_cases hpd : (d - 1) / 2 = i
          · rw [hpd, getD_set_self hlen]
            have hdchild : d = leftChildIndex i ∨ d = rightChildIndex i := by
              unfold leftChildIndex rightChildIndex
              omega
            exact hbest d hd hdchild
          · rw [getD_set_ne (show i ≠ (d - 1) / 2 from fun h => hpd h.symm)]
            exact H d hd hd0 (Nat.zero_le _)
      have hlen2 : (l.set i (l.getD c default)).length = l.length := List.length_set ..
      have ihc := ih (l.set i (l.getD c default)) c (by omega) (by omega) H2
      obtain ⟨ilen, ile, ilt, istop, iheap, icoe⟩ := ihc
      have hred : holeAux mom cmp (fuel + 1) l i =
          holeAux mom cmp fuel (l.set i (l.getD c default)) c := by
        simp only [holeAux, hstep]
      rw [hred]
      rw [hlen2] at ilen ilt istop
      refine ⟨ilen, by omega, ilt, istop, iheap, ?_⟩
      have hcval : (l.set i (l.getD c default)).getD c default = l.getD c default :=
        getD_set_ne (by omega) _ _
      rw [hcval] at icoe
      have e2 : (↑(l.set i (l.getD c default)) : Multiset T) + {l.getD i default} =
          ↑l + {l.getD c default} := coe_set_add hlen _ _
      set r := holeAux mom cmp fuel (l.set i (l.getD c default)) c with hr
      have key : (↑r.1 : Multiset T) + {l.getD i default} + {l.getD c default} =
          ↑l + {r.1.getD r.2 default} + {l.getD c default} := by
        calc (↑r.1 : Multiset T) + {l.getD i default} + {l.getD c default}
            = ↑r.1 + {l.getD c default} + {l.getD i default} := by
              rw [add_right_comm]
          _ = ↑(l.set i (l.getD c default)) + {r.1.getD r.2 default} +
              {l.getD i default} := by rw [icoe]
          _ = ↑(l.set i (l.getD c default)) + {l.getD i default} +
              {r.1.getD r.2 default} := by rw [add_right_comm]
          _ = ↑l + {l.getD c default} + {r.1.getD r.2 default} := by rw [e2]
          _ = ↑l + {r.1.getD r.2 default} + {l.getD c default} := by
              rw [add_right_comm]
      exact add_right_cancel key

/-! ## Shrink and pop lemmas -/

theorem shrink_data {T : Type} (a : GoSlice T) :
    (shrink a).data = a.data.take (a.data.length - 1) := by
  simp only [shrink, goTake, nilSlice]
  split_ifs with h1 h2
  · simp [h1]
  · rfl
  · rfl

theorem heapFrom_take {T : Type} [Inhabited T] {mom : MinOrMax}
    {cmp : T → T → Int} {l : List T} (H : HeapFrom mom cmp l 0) (k : Nat) :
    HeapFrom mom cmp (l.take k) 0 := by
  intro c hc hc0 _
  rw [List.length_take, lt_min_iff] at hc
  obtain ⟨hck, hcl⟩ := hc
  rw [getD_take hck, getD_take (lt_trans (parentIndex_lt hc0) hck)]
  exact H c hcl hc0 (Nat.zero_le _)

theorem pop_spec {T : Type} [Inhabited T] {mom : MinOrMax} {cmp : T → T → Int}
    (L : LawfulCmp mom cmp) {h : Heap T} (H : HeapFrom mom cmp h.sl.data 0)
    (hne : ¬ h.sl.data.length = 0) :
    (pop mom cmp h).1 = (h.sl.data.getD 0 default, true) ∧
    HeapFrom mom cmp (pop mom cmp h).2.sl.data 0 ∧
    (pop mom cmp h).2.sl.data.length = h.sl.data.length - 1 ∧
    (↑(pop mom cmp h).2.sl.data : Multiset T) + {h.sl.data.getD 0 default} =
      ↑h.sl.data := by
  obtain ⟨ilen, _, ilt, istop, iheap, icoe⟩ :=
    holeAux_spec L h.sl.data.length h.sl.data 0 (by omega) (by omega) H
  simp only [pop, if_neg hne, pushRootHoleDownToLeaf]
  set li := holeAux mom cmp h.sl.data.length h.sl.data 0 with hli
  by_cases hcase : li.2 + 1 = li.1.length
  · rw [if_pos hcase]
    have hdata : (shrink { h.sl with data := li.1 }).data =
        li.1.take (li.1.length - 1) := shrink_data _
    have hone : 0 < li.1.length := by omega
    have hdrop : (↑(li.1.take (li.1.length - 1)) : Multiset T) +
        {li.1.getD (li.1.length - 1) default} = ↑li.1 := coe_dropLast_add hone _
    refine ⟨rfl, ?_, ?_, ?_⟩
    · rw [hdata]
      exact heapFrom_take iheap _
    · rw [hdata, List.length_take]
      omega
    · rw [hdata]
      have hi2 : li.2 = li.1.length - 1 := by omega
      rw [hi2] at icoe
      have key : (↑(li.1.take (li.1.length - 1)) : Multiset T) +
          {h.sl.data.getD 0 default} + {li.1.getD (li.1.length - 1) default} =
          ↑h.sl.data + {li.1.getD (li.1.length - 1) default} := by
        calc (↑(li.1.take (li.1.length - 1)) : Multiset T) + {h.sl.data.getD 0 default} +
            {li.1.getD (li.1.length - 1) default}
            = ↑(li.1.take (li.1.length - 1)) +
              {li.1.getD (li.1.length - 1) default} + {h.sl.data.getD 0 default} := by
                rw [add_right_comm]
          _ = ↑li.1 + {h.sl.data.getD 0 default} := by rw [hdrop]
          _ = ↑h.sl.data + {li.1.getD (li.1.length - 1) default} := by
                rw [icoe]
      exact add_right_cancel key
  · rw [if_neg hcase]
    have hdata : (shrink { h.sl with data := li.1 }).data =
        li.1.take (li.1.length - 1) := shrink_data _
    have hi2 : li.2 < li.1.length - 1 := by omega
    have hlen3 : ((shrink { h.sl with data := li.1 }).data.set li.2
        (li.1.getD (li.1.length - 1) default)).length = li.1.length - 1 := by
      rw [List.length_set, hdata, List.length_take]
      omega
    have hl2i : (shrink { h.sl with data := li.1 }).data.getD li.2 default =
        li.1.getD li.2 default := by
      rw [hdata]
      exact getD_take hi2 _
    have hstop' : h.sl.data.length ≤ 2 * li.2 + 1 := by
      have := istop
      unfold leftChildIndex at this
      omega
    refine ⟨rfl, ?_, ?_, ?_⟩
    · rw [bubble]
      apply bubbleAux_heapFrom L
      · omega
      · rw [List.length_set, hdata, List.length_take]
        omega
      · intro c hc hc0 hci
        rw [List.length_set, hdata, List.length_take] at hc
        have hc' : c < li.1.length - 1 := by omega
        have hpc : (c - 1) / 2 ≠ li.2 := by omega
        rw [getD_set_ne (show li.2 ≠ c from fun e => hci e.symm),
          getD_set_ne (show li.2 ≠ (c - 1) / 2 from fun e => hpc e.symm),
          hdata, getD_take hc', getD_take (lt_trans (parentIndex_lt hc0) hc')]
        exact iheap c (by omega) hc0 (Nat.zero_le _)
      · intro c hc hc0 hcp
        rw [List.length_set, hdata, List.length_take] at hc
        omega
    · rw [bubble, bubbleAux_length, hlen3]
      omega
    · rw [bubble, bubbleAux_coe _ _ _ _ _ (by rw [hlen3]; omega)]
      have e3 : (↑((shrink { h.sl with data := li.1 }).data.set li.2
          (li.1.getD (li.1.length - 1) default)) : Multiset T) +
          {(shrink { h.sl with data := li.1 }).data.getD li.2 default} =
          ↑(shrink { h.sl with data := li.1 }).data +
          {li.1.getD (li.1.length - 1) default} :=
        coe_set_add (by rw [hdata, List.length_take]; omega) _ _
      rw [hl2i] at e3
      have hone : 0 < li.1.length := by omega
      have hdrop : (↑(li.1.take (li.1.length - 1)) : Multiset T) +
          {li.1.getD (li.1.length - 1) default} = ↑li.1 := coe_dropLast_add hone _
      rw [hdata] at e3
      set l3 := (shrink { h.sl with data := li.1 }).data.set li.2
          (li.1.getD (li.1.length - 1) default) with hl3
      rw [hdata] at hl3
      have key : (↑l3 : Multiset T) + {h.sl.data.getD 0 default} + {li.1.getD li.2 default} =
          ↑h.sl.data + {li.1.getD li.2 default} := by
        calc (↑l3 : Multiset T) + {h.sl.data.getD 0 default} + {li.1.getD li.2 default}
            = ↑l3 + {li.1.getD li.2 default} + {h.sl.data.getD 0 default} := by
              rw [add_right_comm]
          _ = ↑(li.1.take (li.1.length - 1)) +
              {li.1.getD (li.1.length - 1) default} + {h.sl.data.getD 0 default} := by
              rw [← hl3] at e3
              rw [e3]
          _ = ↑li.1 + {h.sl.data.getD 0 default} := by rw [hdrop]
          _ = ↑h.sl.data + {li.1.getD li.2 default} := by rw [icoe]
      exact add_right_cancel key

/-! ## Root minimality, draining, and reachability -/

theorem heapFrom_root_le {T : Type} [Inhabited T] {mom : MinOrMax}
    {cmp : T → T → Int} (L : LawfulCmp mom cmp) {l : List T}
    (H : HeapFrom mom cmp l 0) :
    ∀ j, j < l.length → mom.mul * cmp (l.getD 0 default) (l.getD j default) ≤ 0 := by
  intro j
  induction j using Nat.strong_induction_on with
  | _ j ih =>
    intro hj
    rcases Nat.eq_zero_or_pos j with h0 | h0
    · subst h0
      exact L.refl _
    · have hp : (j - 1) / 2 < j := parentIndex_lt h0
      have h1 := ih _ hp (lt_trans hp hj)
      have h2 := H j hj h0 (Nat.zero_le _)
      exact L.le_trans _ _ _ h1 h2

theorem mem_imp_root_le {T : Type} [Inhabited T] {mom : MinOrMax}
    {cmp : T → T → Int} (L : LawfulCmp mom cmp) {l : List T}
    (H : HeapFrom mom cmp l 0) {b : T} (hb : b ∈ l) :
    mom.mul * cmp (l.getD 0 default) b ≤ 0 := by
  obtain ⟨j, hj, rfl⟩ := List.mem_iff_getElem.mp hb
  have := heapFrom_root_le L H j hj
  rwa [List.getD_eq_getElem _ _ hj] at this

theorem getD_zero_mem {T : Type} [Inhabited T] {l : List T}
    (h : 0 < l.length) : l.getD 0 default ∈ l := by
  rw [List.getD_eq_getElem _ _ h]
  exact List.getElem_mem _

theorem pop_empty {T : Type} [Inhabited T] (mom : MinOrMax)
    (cmp : T → T → Int) {h : Heap T} (hlen : h.sl.data.length = 0) :
    pop mom cmp h = ((default, false), h) := by
  simp [pop, hlen]

theorem pop_snd_mem {T : Type} [Inhabited T] {mom : MinOrMax}
    {cmp : T → T → Int} (L : LawfulCmp mom cmp) {h : Heap T}
    (H : HeapFrom mom cmp h.sl.data 0) {x : T}
    (hx : x ∈ (pop mom cmp h).2.sl.data) : x ∈ h.sl.data := by
  rcases Nat.eq_zero_or_pos h.sl.data.length with h0 | h0
  · rwa [pop_empty mom cmp h0] at hx
  · obtain ⟨_, _, _, hcoe⟩ := pop_spec L H (by omega)
    have : x ∈ (↑(pop mom cmp h).2.sl.data : Multiset T) + {h.sl.data.getD 0 default} := by
      rw [Multiset.mem_add]
      exact Or.inl (by simpa using hx)
    rw [hcoe] at this
    simpa using this

theorem drain_mem {T : Type} [Inhabited T] {mom : MinOrMax}
    {cmp : T → T → Int} (L : LawfulCmp mom cmp) :
    ∀ (fuel : Nat) (h : Heap T), HeapFrom mom cmp h.sl.data 0 →
      ∀ x, x ∈ drain mom cmp fuel h → x ∈ h.sl.data := by
  intro fuel
  induction fuel with
  | zero => intro h _ x hx; simp [drain] at hx
  | succ fuel ih =>
    intro h H x hx
    rcases Nat.eq_zero_or_pos h.sl.data.length with h0 | h0
    · rw [drain, pop_empty mom cmp h0] at hx
      simp at hx
    · obtain ⟨hfst, hheap, _, _⟩ := pop_spec L H (by omega)
      rw [drain, hfst] at hx
      simp only at hx
      rcases List.mem_cons.mp hx with rfl | hx'
      · exact getD_zero_mem h0
      · exact pop_snd_mem L H (ih _ hheap x hx')

theorem drain_sorted {T : Type} [Inhabited T] {mom : MinOrMax}
    {cmp : T → T → Int} (L : LawfulCmp mom cmp) :
    ∀ (fuel : Nat) (h : Heap T), HeapFrom mom cmp h.sl.data 0 →
      List.Sorted (fun a b => mom.mul * cmp a b ≤ 0) (drain mom cmp fuel h) := by
  intro fuel
  induction fuel with
  | zero => intro h _; simp [drain]
  | succ fuel ih =>
    intro h H
    rcases Nat.eq_zero_or_pos h.sl.data.length with h0 | h0
    · rw [drain, pop_empty mom cmp h0]
      simp
    · obtain ⟨hfst, hheap, _, _⟩ := pop_spec L H (by omega)
      rw [drain, hfst]
      simp only [if_true, List.Sorted, List.pairwise_cons]
      refine ⟨?_, ih _ hheap⟩
      intro b hb
      have hb1 : b ∈ (pop mom cmp h).2.sl.data := drain_mem L fuel _ hheap b hb
      have hb2 : b ∈ h.sl.data := pop_snd_mem L H hb1
      exact mem_imp_root_le L H hb2

theorem drain_coe {T : Type} [Inhabited T] {mom : MinOrMax}
    {cmp : T → T → Int} (L : LawfulCmp mom cmp) :
    ∀ (fuel : Nat) (h : Heap T), HeapFrom mom cmp h.sl.data 0 →
      h.sl.data.length ≤ fuel →
      (↑(drain mom cmp fuel h) : Multiset T) = ↑h.sl.data := by
  intro fuel
  induction fuel with
  | zero =>
    intro h _ hlen
    have : h.sl.data = [] := List.length_eq_zero.mp (by omega)
    rw [this]
    rfl
  | succ fuel ih =>
    intro h H hlen
    rcases Nat.eq_zero_or_pos h.sl.data.length with h0 | h0
    · rw [drain, pop_empty mom cmp h0]
      have : h.sl.data = [] := List.length_eq_zero.mp h0
      rw [this]
      rfl
    · obtain ⟨hfst, hheap, hlen', hcoe⟩ := pop_spec L H (by omega)
      rw [drain, hfst]
      simp only [if_true]
      rw [← Multiset.cons_coe, ← Multiset.singleton_add,
        ih _ hheap (by omega), add_comm]
      exact hcoe

theorem pushAll_heapFrom {T : Type} [Inhabited T] {mom : MinOrMax}
    {cmp : T → T → Int} (L : LawfulCmp mom cmp) :
    ∀ (elems : List T) (h : Heap T), HeapFrom mom cmp h.sl.data 0 →
      HeapFrom mom cmp (pushAll mom cmp h elems).sl.data 0 := by
  intro elems
  induction elems with
  | nil => intro h H; exact H
  | cons e rest ih =>
    intro h H
    exact ih _ (push_data_heapFrom L H e)

theorem pushAll_coe {T : Type} [Inhabited T] (mom : MinOrMax)
    (cmp : T → T → Int) :
    ∀ (elems : List T) (h : Heap T),
      (↑(pushAll mom cmp h elems).sl.data : Multiset T) = ↑h.sl.data + ↑elems := by
  intro elems
  induction elems with
  | nil => intro h; simp [pushAll]
  | cons e rest ih =>
    intro h
    show (↑(pushAll mom cmp (push mom cmp h e) rest).sl.data : Multiset T) = _
    rw [ih, push_data_coe, ← Multiset.cons_coe, ← Multiset.singleton_add]
    abel

theorem pushAll_length {T : Type} [Inhabited T] (mom : MinOrMax)
    (cmp : T → T → Int) :
    ∀ (elems : List T) (h : Heap T),
      (pushAll mom cmp h elems).sl.data.length = h.sl.data.length + elems.length := by
  intro elems
  induction elems with
  | nil => intro h; rfl
  | cons e rest ih =>
    intro h
    show (pushAll mom cmp (push mom cmp h e) rest).sl.data.length = _
    rw [ih, push_data_length]
    simp
    omega

theorem emptyHeap_heapFrom {T : Type} [Inhabited T] (mom : MinOrMax)
    (cmp : T → T → Int) : HeapFrom mom cmp (emptyHeap T).sl.data 0 := by
  intro c hc _ _
  simp [emptyHeap, nilSlice] at hc

theorem filter_eq_pushAll {T : Type} [Inhabited T] (mom : MinOrMax)
    (cmp : T → T → Int) (h : Heap T) (f : T → Bool × BreakOrContinue) :
    filter mom cmp h f =
      pushAll mom cmp ⟨goTake h.sl 0⟩ (filterLoop f h.sl.data) := rfl

theorem goTake_zero_heapFrom {T : Type} [Inhabited T] (mom : MinOrMax)
    (cmp : T → T → Int) (a : GoSlice T) :
    HeapFrom mom cmp (Heap.mk (goTake a 0)).sl.data 0 := by
  intro c hc _ _
  simp [goTake] at hc

theorem filter_heapFrom {T : Type} [Inhabited T] {mom : MinOrMax}
    {cmp : T → T → Int} (L : LawfulCmp mom cmp) (h : Heap T)
    (f : T → Bool × BreakOrContinue) :
    HeapFrom mom cmp (filter mom cmp h f).sl.data 0 := by
  rw [filter_eq_pushAll]
  exact pushAll_heapFrom L _ _ (goTake_zero_heapFrom mom cmp h.sl)

theorem filter_coe {T : Type} [Inhabited T] (mom : MinOrMax)
    (cmp : T → T → Int) (h : Heap T) (f : T → Bool × BreakOrContinue) :
    (↑(filter mom cmp h f).sl.data : Multiset T) = ↑(filterLoop f h.sl.data) := by
  rw [filter_eq_pushAll, pushAll_coe]
  simp [goTake]

theorem reach_heapFrom {T : Type} [Inhabited T] {mom : MinOrMax}
    {cmp : T → T → Int} (L : LawfulCmp mom cmp) {h : Heap T}
    (hr : Reach mom cmp h) : HeapFrom mom cmp h.sl.data 0 := by
  induction hr with
  | empty => exact emptyHeap_heapFrom mom cmp
  | pushR e _ ih => exact push_data_heapFrom L ih e
  | popR _ ih =>
    rename_i h' _
    rcases Nat.eq_zero_or_pos h'.sl.data.length with h0 | h0
    · rw [pop_empty mom cmp h0]
      exact ih
    · exact (pop_spec L ih (by omega)).2.1
  | filterR f _ ih => exact filter_heapFrom L _ f
  | clearR _ _ =>
    intro c hc _ _
    simp [Clear, nilSlice] at hc

/-! ## Filter pass characterization -/

theorem filterLoop_eq_filter_visits {T : Type} (f : T → Bool × BreakOrContinue) :
    ∀ l : List T,
      filterLoop f l = (filterVisits f l).filter (fun x => (f x).1) := by
  intro l
  induction l with
  | nil => rfl
  | cons x xs ih =>
    simp only [filterLoop, filterVisits]
    rcases hb : (f x).2 with _ | _ <;> rcases hk : (f x).1 with _ | _ <;>
      simp [List.filter_cons, hb, hk, ih]

theorem filterVisits_eq_take {T : Type} (f : T → Bool × BreakOrContinue) :
    ∀ l : List T,
      filterVisits f l = l.take
        (min ((l.findIdx fun x => decide ((f x).2 = BreakOrContinue.Break)) + 1)
          l.length) := by
  intro l
  induction l with
  | nil => rfl
  | cons x xs ih =>
    simp only [filterVisits, List.findIdx_cons]
    rcases hb : (f x).2 with _ | _
    · show (x :: ([] : List T)) = _
      have hred : (bif decide (BreakOrContinue.Break = BreakOrContinue.Break) then 0
          else (xs.findIdx fun y => decide ((f y).2 = BreakOrContinue.Break)) + 1) =
          0 := rfl
      rw [hred, List.length_cons]
      have harith1 : min (0 + 1) (xs.length + 1) = 1 := by omega
      rw [harith1]
      simp
    · show x :: filterVisits f xs = _
      have hred : (bif decide (BreakOrContinue.Continue = BreakOrContinue.Break) then 0
          else (xs.findIdx fun y => decide ((f y).2 = BreakOrContinue.Break)) + 1) =
          (xs.findIdx fun y => decide ((f y).2 = BreakOrContinue.Break)) + 1 := rfl
      rw [hred, List.length_cons]
      have harith :
          min ((xs.findIdx fun y => decide ((f y).2 = BreakOrContinue.Break)) + 1 + 1)
            (xs.length + 1) =
          (min ((xs.findIdx fun y => decide ((f y).2 = BreakOrContinue.Break)) + 1)
            xs.length) + 1 := by
        omega
      rw [harith, List.take_succ_cons, ih]

/-! ## Bottom-up heapify (spec-modelled FromSlice) -/

theorem siftDownAux_spec {T : Type} [Inhabited T] {mom : MinOrMax}
    {cmp : T → T → Int} (L : LawfulCmp mom cmp) :
    ∀ (fuel : Nat) (l : List T) (s j : Nat), l.length ≤ fuel + j → s ≤ j →
      (∀ c, c < l.length → 0 < c → s ≤ (c - 1) / 2 → (c - 1) / 2 ≠ j →
        mom.mul * cmp (l.getD ((c - 1) / 2) default) (l.getD c default) ≤ 0) →
      (s < j → ∀ c, c < l.length → 0 < c → (c - 1) / 2 = j →
        mom.mul * cmp (l.getD ((j - 1) / 2) default) (l.getD c default) ≤ 0) →
      HeapFrom mom cmp (siftDownAux mom cmp fuel l j) s ∧
      (↑(siftDownAux mom cmp fuel l j) : Multiset T) = ↑l ∧
      (siftDownAux mom cmp fuel l j).length = l.length := by
  intro fuel
  induction fuel with
  | zero =>
    intro l s j hfuel hsj hA hB
    refine ⟨?_, rfl, rfl⟩
    show HeapFrom mom cmp l s
    intro c hc hc0 hcs
    have hcj : (c - 1) / 2 ≠ j := by
      have := parentIndex_lt hc0
      omega
    exact hA c hc hc0 hcs hcj
  | succ fuel ih =>
    intro l s j hfuel hsj hA hB
    simp only [siftDownAux]
    by_cases hleft : l.length ≤ leftChildIndex j
    · -- no left child: `j` has no children in range, nothing to repair
      rw [if_pos hleft]
      refine ⟨?_, rfl, rfl⟩
      intro c hc hc0 hcs
      unfold leftChildIndex at hleft
      have hcj : (c - 1) / 2 ≠ j := by omega
      exact hA c hc hc0 hcs hcj
    · rw [if_neg hleft]
      unfold leftChildIndex at hleft
      unfold leftChildIndex rightChildIndex
      set b := if l.length ≤ j * 2 + 2 then j * 2 + 1
        else if mom.mul * cmp (l.getD (j * 2 + 2) default)
            (l.getD (j * 2 + 1) default) ≤ 0 then j * 2 + 2
        else j * 2 + 1 with hbdef
      have hbchild : b = j * 2 + 1 ∨ (b = j * 2 + 2 ∧ j * 2 + 2 < l.length) := by
        rw [hbdef]
        split_ifs with h1 h2
        · exact Or.inl rfl
        · exact Or.inr ⟨rfl, by omega⟩
        · exact Or.inl rfl
      have hblt : b < l.length := by
        rcases hbchild with h | ⟨h, hlt⟩
        · omega
        · omega
      have hjb : j < b := by rcases hbchild with h | ⟨h, _⟩ <;> omega
      have hparb : (b - 1) / 2 = j := by rcases hbchild with h | ⟨h, _⟩ <;> omega
      have hbest : ∀ d, d < l.length → (d = j * 2 + 1 ∨ d = j * 2 + 2) →
          mom.mul * cmp (l.getD b default) (l.getD d default) ≤ 0 := by
        intro d hd hdchild
        rw [hbdef]
        split_ifs with h1 h2
        · rcases hdchild with rfl | rfl
          · exact L.refl _
          · omega
        · rcases hdchild with rfl | rfl
          · exact h2
          · exact L.refl _
        · rcases hdchild with rfl | rfl
          · exact L.refl _
          · exact L.flip _ _ (by omega)
      by_cases hswap : mom.mul * cmp (l.getD b default) (l.getD j default) < 0
      · -- the chosen child is strictly better: swap and continue from it
        rw [if_pos hswap]
        have hble : mom.mul * cmp (l.getD b default) (l.getD j default) ≤ 0 :=
          le_of_lt hswap
        have vj : (swapL l j b).getD j default = l.getD b default :=
          swapL_getD_fst (by omega) (by omega)
        have vb : (swapL l j b).getD b default = l.getD j default :=
          swapL_getD_snd hblt
        have vother : ∀ m, m ≠ j → m ≠ b →
            (swapL l j b).getD m default = l.getD m default := by
          intro m h1 h2
          exact swapL_getD_other (by omega) (by omega)
        have hres := ih (swapL l j b) s b
          (by rw [swapL_length]; omega) (by omega)
          (by
            intro c hc hc0 hcs hcb
            rw [swapL_length] at hc
            by_cases hcbeq : c = b
            · subst hcbeq
              rw [hparb, vj, vb]
              exact hble
            · by_cases hcj : c = j
              · subst hcj
                have hj0 : 0 < c := hc0
                have hpj : (c - 1) / 2 ≠ c := by omega
                have hpb : (c - 1) / 2 ≠ b := by omega
                rw [vj, vother _ hpj hpb]
                have hsc : s < c := by omega
                exact hB hsc b hblt (by omega) hparb
              · by_cases hpj : (c - 1) / 2 = j
                · rw [hpj, vj, vother c hcj hcbeq]
                  have hcchild : c = j * 2 + 1 ∨ c = j * 2 + 2 := by omega
                  exact hbest c hc hcchild
                · rw [vother _ hpj hcb, vother c hcj hcbeq]
                  exact hA c hc hc0 hcs hpj)
          (by
            intro _ c hc hc0 hcp
            rw [swapL_length] at hc
            have hcj : c ≠ j := by omega
            have hcb : c ≠ b := by omega
            rw [hparb, vj, vother c hcj hcb]
            have h1 := hA c hc hc0 (by omega) (by omega)
            rw [hcp] at h1
            exact h1)
        refine ⟨hres.1, ?_, ?_⟩
        · rw [hres.2.1, coe_swapL (by omega) hblt]
        · rw [hres.2.2, swapL_length]
      · -- the node already fits above both children
        rw [if_neg hswap]
        have hjb' : mom.mul * cmp (l.getD j default) (l.getD b default) ≤ 0 :=
          L.flip _ _ (by omega)
        refine ⟨?_, rfl, rfl⟩
        intro c hc hc0 hcs
        by_cases hpj : (c - 1) / 2 = j
        · rw [hpj]
          have hcchild : c = j * 2 + 1 ∨ c = j * 2 + 2 := by omega
          exact L.le_trans _ _ _ hjb' (hbest c hc hcchild)
        · exact hA c hc hc0 hcs hpj

theorem heapifyFrom_spec {T : Type} [Inhabited T] {mom : MinOrMax}
    {cmp : T → T → Int} (L : LawfulCmp mom cmp) :
    ∀ (j : Nat) (l : List T), HeapFrom mom cmp l j →
      HeapFrom mom cmp (heapifyFrom mom cmp l j) 0 ∧
      (↑(heapifyFrom mom cmp l j) : Multiset T) = ↑l ∧
      (heapifyFrom mom cmp l j).length = l.length := by
  intro j
  induction j with
  | zero => intro l H; exact ⟨H, rfl, rfl⟩
  | succ j ih =>
    intro l H
    have hsd := siftDownAux_spec L l.length l j j (by omega) (le_refl j)
      (by
        intro c hc hc0 hcs hcj
        exact H c hc hc0 (by omega))
      (by omega)
    have hrec := ih (siftDown mom cmp l j) (by
      show HeapFrom mom cmp (siftDownAux mom cmp l.length l j) j
      exact hsd.1)
    have hstep : heapifyFrom mom cmp l (j + 1) =
        heapifyFrom mom cmp (siftDown mom cmp l j) j := rfl
    rw [hstep]
    refine ⟨hrec.1, ?_, ?_⟩
    · rw [hrec.2.1]
      exact hsd.2.1
    · rw [hrec.2.2]
      exact hsd.2.2

theorem heapFrom_half {T : Type} [Inhabited T] (mom : MinOrMax)
    (cmp : T → T → Int) (l : List T) : HeapFrom mom cmp l (l.length / 2) := by
  intro c hc hc0 hcs
  omega

theorem fromSlice_spec {T : Type} [Inhabited T] {mom : MinOrMax}
    {cmp : T → T → Int} (L : LawfulCmp mom cmp) (s : List T) :
    HeapFrom mom cmp (fromSlice mom cmp s).sl.data 0 ∧
    (↑(fromSlice mom cmp s).sl.data : Multiset T) = ↑s ∧
    (fromSlice mom cmp s).sl.data.length = s.length := by
  unfold fromSlice
  split_ifs with h0
  · have : s = [] := List.length_eq_zero.mp h0
    subst this
    exact ⟨emptyHeap_heapFrom mom cmp, rfl, rfl⟩
  · exact heapifyFrom_spec L (s.length / 2) s (heapFrom_half mom cmp s)

/-! ## Refinement against the naive sorted-sequence reference -/

theorem sorted_head_min {T : Type} {mom : MinOrMax} {cmp : T → T → Int}
    {x : T} {t : List T} (hs : List.Sorted (ple mom cmp) (x :: t))
    {y : T} (hy : y ∈ x :: t) (L : LawfulCmp mom cmp) : ple mom cmp x y := by
  rcases List.mem_cons.mp hy with rfl | hy'
  · exact L.refl y
  · exact (List.pairwise_cons.mp hs).1 y hy'

theorem runHeap_refines {T : Type} [Inhabited T] {mom : MinOrMax}
    {cmp : T → T → Int} (L : LawfulCmp mom cmp)
    (Ha : ∀ a b, ple mom cmp a b → ple mom cmp b a → a = b) :
    ∀ (ops : List (HeapOp T)) (h : Heap T) (s : List T),
      HeapFrom mom cmp h.sl.data 0 → List.Sorted (ple mom cmp) s →
      (↑h.sl.data : Multiset T) = ↑s →
      HeapFrom mom cmp (runHeap mom cmp h ops).sl.data 0 ∧
      List.Sorted (ple mom cmp) (refRun mom cmp s ops) ∧
      (↑(runHeap mom cmp h ops).sl.data : Multiset T) = ↑(refRun mom cmp s ops) := by
  haveI : IsTotal T (ple mom cmp) := by
    constructor
    intro a b
    by_cases hab : ple mom cmp a b
    · exact Or.inl hab
    · exact Or.inr (L.total hab)
  haveI : IsTrans T (ple mom cmp) := by
    constructor
    intro a b c
    exact L.le_trans a b c
  intro ops
  induction ops with
  | nil => intro h s H hs hco; exact ⟨H, hs, hco⟩
  | cons op rest ih =>
    intro h s H hs hco
    cases op with
    | pushOp e =>
      apply ih
      · exact push_data_heapFrom L H e
      · exact List.Sorted.orderedInsert e s hs
      · show (↑(push mom cmp h e).sl.data : Multiset T) =
            ↑(s.orderedInsert (ple mom cmp) e)
        rw [push_data_coe,
          Multiset.coe_eq_coe.mpr (List.perm_orderedInsert (ple mom cmp) e s),
          ← Multiset.cons_coe, ← Multiset.singleton_add, hco]
        abel
    | popOp =>
      rcases Nat.eq_zero_or_pos h.sl.data.length with h0 | h0
      · have hd : h.sl.data = [] := List.length_eq_zero.mp h0
        have hsnil : s = [] := by
          have hcard := congrArg Multiset.card hco
          rw [Multiset.coe_card, Multiset.coe_card, hd] at hcard
          exact List.length_eq_zero.mp hcard.symm
        subst hsnil
        apply ih
        · show HeapFrom mom cmp (pop mom cmp h).2.sl.data 0
          rw [pop_empty mom cmp h0]
          exact H
        · exact List.sorted_nil
        · show (↑(pop mom cmp h).2.sl.data : Multiset T) = _
          rw [pop_empty mom cmp h0]
          exact hco
      · obtain ⟨hfst, hheap, _, hcoe⟩ := pop_spec L H (by omega)
        cases s with
        | nil =>
          exfalso
          have hcard := congrArg Multiset.card hco
          rw [Multiset.coe_card, Multiset.coe_card] at hcard
          rw [List.length_nil] at hcard
          omega
        | cons x t =>
          have hroot_mem : h.sl.data.getD 0 default ∈ x :: t := by
            have h1 : h.sl.data.getD 0 default ∈ h.sl.data := getD_zero_mem h0
            have : h.sl.data.getD 0 default ∈ (↑h.sl.data : Multiset T) := by
              simpa using h1
            rw [hco] at this
            simpa using this
          have hx_mem : x ∈ h.sl.data := by
            have h1 : x ∈ (↑(x :: t) : Multiset T) := by simp
            rw [← hco] at h1
            simpa using h1
          have hxr : x = h.sl.data.getD 0 default := by
            apply Ha
            · exact sorted_head_min hs hroot_mem L
            · exact mem_imp_root_le L H hx_mem
          apply ih
          · exact hheap
          · exact (List.pairwise_cons.mp hs).2
          · show (↑(pop mom cmp h).2.sl.data : Multiset T) = ↑t
            have key : (↑(pop mom cmp h).2.sl.data : Multiset T) +
                {h.sl.data.getD 0 default} =
                (↑t : Multiset T) + {h.sl.data.getD 0 default} := by
              rw [hcoe, hco, ← hxr, ← Multiset.cons_coe, ← Multiset.singleton_add]
              abel
            exact add_right_cancel key

/-! ## Shrink capacity bounds -/

theorem holeAux_length {T : Type} [Inhabited T] (mom : MinOrMax)
    (cmp : T → T → Int) :
    ∀ (fuel : Nat) (l : List T) (i : Nat),
      (holeAux mom cmp fuel l i).1.length = l.length := by
  intro fuel
  induction fuel with
  | zero => intro l i; rfl
  | succ fuel ih =>
    intro l i
    rcases hstep : holeStep mom cmp l i with _ | c
    · simp only [holeAux, hstep]
    · simp only [holeAux, hstep]
      rw [ih, List.length_set]

theorem shrink_cap_le {T : Type} (a : GoSlice T) :
    (shrink a).cap ≤ 2 * (shrink a).data.length := by
  simp only [shrink, goTake, nilSlice]
  split_ifs with h1 h2
  · simp
  · simp only [List.length_take]
    omega
  · simp only [List.length_take] at h2 ⊢
    omega

theorem pop_cap_le {T : Type} [Inhabited T] (mom : MinOrMax)
    (cmp : T → T → Int) (h : Heap T) (h0 : 0 < h.sl.data.length) :
    (pop mom cmp h).2.sl.cap ≤ 2 * (pop mom cmp h).2.sl.data.length := by
  simp only [pop, if_neg (by omega : ¬ h.sl.data.length = 0), pushRootHoleDownToLeaf]
  set li := holeAux mom cmp h.sl.data.length h.sl.data 0 with hli
  by_cases hcase : li.2 + 1 = li.1.length
  · rw [if_pos hcase]
    exact shrink_cap_le _
  · rw [if_neg hcase]
    simp only
    rw [bubble, bubbleAux_length, List.length_set]
    exact shrink_cap_le _

/-! ## Claim theorems -/

/-- C1: for every heap reachable from the empty heap by any sequence of
Push/PushOrderable, Pop/PopOrderable, Filter/FilterOrderable and Clear
operations (the embedding is parametric in the comparator, covering both
dispatch paths; the comparator satisfies the package's total-order contract),
the heap property holds: for every index `i` with a child index
`c < len(storage)`, `sign(Order) * cmp(storage[i], storage[c]) <= 0`. -/
theorem c1_heap_property_invariant {T : Type} [Inhabited T] (mom : MinOrMax)
    (cmp : T → T → Int) (L : LawfulCmp mom cmp) {h : Heap T}
    (hr : Reach mom cmp h) : HeapProp mom cmp h.sl.data :=
  heapProp_iff_heapFrom.mpr (reach_heapFrom L hr)

/-- Witness for C1: a concrete push/push/push/pop/filter sequence on a Min
heap of ints satisfies the heap property. -/
theorem c1_witness :
    HeapProp .Min cmpOrdered
      (filter .Min cmpOrdered
        (pop .Min cmpOrdered
          (push .Min cmpOrdered
            (push .Min cmpOrdered
              (push .Min cmpOrdered (emptyHeap Int) 3) 1) 2)).2
        (fun x => (decide (0 < x), BreakOrContinue.Continue))).sl.data :=
  c1_heap_property_invariant .Min cmpOrdered (lawful_cmpOrdered _)
    (Reach.filterR _
      (Reach.popR (Reach.pushR 2 (Reach.pushR 1 (Reach.pushR 3 Reach.empty)))))

/-- C2: pushing any finite sequence onto an empty heap and popping until Pop
reports empty yields a non-decreasing sequence on a Min heap and a
non-increasing one on a Max heap; in particular pushing 1,5,2,9,-3,17,18,19,14
onto a Min heap of ints and draining yields -3,1,2,5,9,14,17,18,19. -/
theorem c2_pop_drain_sorted :
    (∀ (T : Type) [LinearOrder T] [Inhabited T] (elems : List T),
      List.Sorted (· ≤ ·)
        (drainAll .Min cmpOrdered (pushAll .Min cmpOrdered (emptyHeap T) elems)) ∧
      List.Sorted (· ≥ ·)
        (drainAll .Max cmpOrdered (pushAll .Max cmpOrdered (emptyHeap T) elems))) ∧
    drainAll .Min cmpOrdered
      (pushAll .Min cmpOrdered (emptyHeap Int) [1, 5, 2, 9, -3, 17, 18, 19, 14]) =
      [-3, 1, 2, 5, 9, 14, 17, 18, 19] := by
  constructor
  · intro T _ _ elems
    constructor
    · have hH := pushAll_heapFrom (lawful_cmpOrdered (T := T) .Min) elems
        (emptyHeap T) (emptyHeap_heapFrom _ _)
      have hs := drain_sorted (lawful_cmpOrdered .Min)
        (Len (pushAll .Min cmpOrdered (emptyHeap T) elems)) _ hH
      unfold drainAll
      exact hs.imp (fun hab => ple_min_cmpOrdered.mp hab)
    · have hH := pushAll_heapFrom (lawful_cmpOrdered (T := T) .Max) elems
        (emptyHeap T) (emptyHeap_heapFrom _ _)
      have hs := drain_sorted (lawful_cmpOrdered .Max)
        (Len (pushAll .Max cmpOrdered (emptyHeap T) elems)) _ hH
      unfold drainAll
      exact hs.imp (fun hab => ple_max_cmpOrdered.mp hab)
  · decide

/-- Witness for C2 at a concrete two-element sequence. -/
theorem c2_witness :
    List.Sorted (· ≤ ·)
      (drainAll .Min cmpOrdered (pushAll .Min cmpOrdered (emptyHeap Int) [2, 1])) :=
  (c2_pop_drain_sorted.1 Int [2, 1]).1

/-- C3: push adds exactly one occurrence of the element and nothing else; a
successful pop on a heap satisfying the heap property returns the old
storage[0] with `true` and removes exactly one occurrence of it; consequently
any run of the common push/pop interface keeps the heap's multiset equal to
the naive sorted-sequence reference's. -/
theorem c3_multiset_refinement {T : Type} [Inhabited T] (mom : MinOrMax)
    (cmp : T → T → Int) (L : LawfulCmp mom cmp)
    (Ha : ∀ a b, ple mom cmp a b → ple mom cmp b a → a = b) :
    (∀ (h : Heap T) (e : T),
      (↑(push mom cmp h e).sl.data : Multiset T) = ↑h.sl.data + {e}) ∧
    (∀ h : Heap T, HeapProp mom cmp h.sl.data → 0 < h.sl.data.length →
      (pop mom cmp h).1 = (h.sl.data.getD 0 default, true) ∧
      (↑(pop mom cmp h).2.sl.data : Multiset T) + {h.sl.data.getD 0 default} =
        ↑h.sl.data) ∧
    (∀ ops : List (HeapOp T),
      (↑(runHeap mom cmp (emptyHeap T) ops).sl.data : Multiset T) =
        ↑(refRun mom cmp [] ops)) := by
  refine ⟨push_data_coe mom cmp, ?_, ?_⟩
  · intro h hp h0
    obtain ⟨h1, _, _, h4⟩ := pop_spec L (heapProp_iff_heapFrom.mp hp) (by omega)
    exact ⟨h1, h4⟩
  · intro ops
    exact (runHeap_refines L Ha ops (emptyHeap T) [] (emptyHeap_heapFrom mom cmp)
      List.sorted_nil rfl).2.2

/-- Witness for C3 at a concrete operation sequence. -/
theorem c3_witness :
    (↑(runHeap .Min cmpOrdered (emptyHeap Int)
        [HeapOp.pushOp 2, HeapOp.pushOp 1, HeapOp.popOp]).sl.data : Multiset Int) =
      ↑(refRun .Min cmpOrdered ([] : List Int)
        [HeapOp.pushOp 2, HeapOp.pushOp 1, HeapOp.popOp]) :=
  (c3_multiset_refinement .Min cmpOrdered (lawful_cmpOrdered _)
    (fun _ _ h1 h2 => antisymm_cmpOrdered _ h1 h2)).2.2 _

/-- C4: `FromSlice` / `FromSliceOrderable` (modelled from the spec §4.7, the
implementation file being absent from src/) produce a heap satisfying the heap
property whose multiset equals the input's exactly; an empty input yields the
canonical empty heap; and FromSlice followed by draining via Pop sorts the
input (ascending for Min, descending for Max). -/
theorem c4_fromSlice_correct :
    (∀ (T : Type) [Inhabited T] (mom : MinOrMax) (cmp : T → T → Int),
      LawfulCmp mom cmp → ∀ s : List T,
        HeapProp mom cmp (fromSlice mom cmp s).sl.data ∧
        (↑(fromSlice mom cmp s).sl.data : Multiset T) = ↑s) ∧
    (∀ (T : Type) [Inhabited T] (mom : MinOrMax) (cmp : T → T → Int),
      fromSlice mom cmp ([] : List T) = emptyHeap T) ∧
    (∀ (T : Type) [LinearOrder T] [Inhabited T] (s : List T),
      drainAll .Min cmpOrdered (FromSlice .Min s) = s.insertionSort (· ≤ ·) ∧
      drainAll .Max cmpOrdered (FromSlice .Max s) = s.insertionSort (· ≥ ·)) := by
  refine ⟨?_, ?_, ?_⟩
  · intro T _ mom cmp L s
    obtain ⟨h1, h2, _⟩ := fromSlice_spec L s
    exact ⟨heapProp_iff_heapFrom.mpr h1, h2⟩
  · intro T _ mom cmp
    rfl
  · intro T _ _ s
    constructor
    · have L := lawful_cmpOrdered (T := T) .Min
      haveI : IsTrans T (· ≤ ·) := ⟨fun _ _ _ h1 h2 => le_trans h1 h2⟩
      haveI : IsTotal T (· ≤ ·) := ⟨fun a b => le_total a b⟩
      haveI : IsAntisymm T (· ≤ ·) := ⟨fun _ _ h1 h2 => le_antisymm h1 h2⟩
      obtain ⟨hH, hco, hlen⟩ := fromSlice_spec L s
      have hFS : FromSlice (T := T) .Min s = fromSlice .Min cmpOrdered s := rfl
      rw [hFS]
      have hsor := drain_sorted L (Len (fromSlice .Min cmpOrdered s)) _ hH
      have hdco := drain_coe L (Len (fromSlice .Min cmpOrdered s)) _ hH (le_refl _)
      have hperm : List.Perm (drainAll .Min cmpOrdered (fromSlice .Min cmpOrdered s)) s :=
        Multiset.coe_eq_coe.mp (hdco.trans hco)
      have hs1 : List.Sorted (· ≤ ·)
          (drainAll .Min cmpOrdered (fromSlice .Min cmpOrdered s)) := by
        unfold drainAll
        exact hsor.imp (fun hab => ple_min_cmpOrdered.mp hab)
      exact List.eq_of_perm_of_sorted
        (hperm.trans (List.perm_insertionSort (· ≤ ·) s).symm) hs1
        (List.sorted_insertionSort (· ≤ ·) s)
    · have L := lawful_cmpOrdered (T := T) .Max
      haveI : IsTrans T (· ≥ ·) := ⟨fun _ _ _ h1 h2 => le_trans h2 h1⟩
      haveI : IsTotal T (· ≥ ·) := ⟨fun a b => le_total b a⟩
      haveI : IsAntisymm T (· ≥ ·) := ⟨fun _ _ h1 h2 => le_antisymm h2 h1⟩
      obtain ⟨hH, hco, hlen⟩ := fromSlice_spec L s
      have hFS : FromSlice (T := T) .Max s = fromSlice .Max cmpOrdered s := rfl
      rw [hFS]
      have hsor := drain_sorted L (Len (fromSlice .Max cmpOrdered s)) _ hH
      have hdco := drain_coe L (Len (fromSlice .Max cmpOrdered s)) _ hH (le_refl _)
      have hperm : List.Perm (drainAll .Max cmpOrdered (fromSlice .Max cmpOrdered s)) s :=
        Multiset.coe_eq_coe.mp (hdco.trans hco)
      have hs1 : List.Sorted (· ≥ ·)
          (drainAll .Max cmpOrdered (fromSlice .Max cmpOrdered s)) := by
        unfold drainAll
        exact hsor.imp (fun hab => ple_max_cmpOrdered.mp hab)
      exact List.eq_of_perm_of_sorted
        (hperm.trans (List.perm_insertionSort (· ≥ ·) s).symm) hs1
        (List.sorted_insertionSort (· ≥ ·) s)

/-- Witness for C4 at a concrete three-element slice. -/
theorem c4_witness :
    drainAll .Min cmpOrdered (FromSlice .Min [3, 1, 2]) =
      List.insertionSort (· ≤ ·) [(3 : Int), 1, 2] :=
  (c4_fromSlice_correct.2.2 Int [3, 1, 2]).1

/-- C5 (evaluation at the failing input): filtering every element out of a
one-element Min heap of ints leaves a zero-length but NON-nil backing slice of
capacity 1 — `filter` truncates with `heap.sl[:i]` and never applies the
canonical-empty shrink rule, so the allocation is retained, contradicting the
claim and the repository's own `TestFilterCompactionToEmpty`.  By contrast a
Pop that empties the same heap does revert to the nil slice. -/
theorem c5_filter_empty_not_nil :
    (filter .Min cmpOrdered (push .Min cmpOrdered (emptyHeap Int) 1)
        (fun _ => (false, BreakOrContinue.Continue))).sl =
      ⟨[], 1, false⟩ ∧
    (pop .Min cmpOrdered (push .Min cmpOrdered (emptyHeap Int) 1)).2.sl =
      nilSlice Int := by
  decide

/-- C6 (counterexample): the claim "the hole moves to the right child exactly
when polarity_cmp(right, left) >= 0" is false: on the valid Min heap
[1, 7, 3], at the root both children exist, polarity_cmp(right, left) =
cmp(3, 7) = -1 < 0, yet the descent step moves the hole to the RIGHT child. -/
theorem c6_counterexample :
    ¬ (∀ (l : List Int) (i : Nat), rightChildIndex i < l.length →
        (holeStep .Min cmpOrdered l i = some (rightChildIndex i) ↔
          0 ≤ MinOrMax.Min.mul *
            cmpOrdered (l.getD (rightChildIndex i) default)
              (l.getD (leftChildIndex i) default))) := by
  intro hclaim
  have h1 : (0 : Int) ≤ MinOrMax.Min.mul *
      cmpOrdered (([(1 : Int), 7, 3]).getD (rightChildIndex 0) default)
        (([(1 : Int), 7, 3]).getD (leftChildIndex 0) default) :=
    (hclaim [1, 7, 3] 0 (by decide)).mp (by decide)
  revert h1
  decide

/-- C6 (amended): during the hole descent, when both children exist the hole
moves to the right child exactly when polarity_cmp(right, left) <= 0 (i.e.
unless the left child is strictly better), and to the left child exactly when
polarity_cmp(right, left) > 0; when only the left child exists the hole moves
to it, and the descent stops at a node with no left child. -/
theorem c6_amended_step_rule {T : Type} [Inhabited T] (mom : MinOrMax)
    (cmp : T → T → Int) (l : List T) (i : Nat) :
    (l.length ≤ leftChildIndex i → holeStep mom cmp l i = none) ∧
    (leftChildIndex i < l.length → l.length ≤ rightChildIndex i →
      holeStep mom cmp l i = some (leftChildIndex i)) ∧
    (rightChildIndex i < l.length →
      (holeStep mom cmp l i = some (rightChildIndex i) ↔
        mom.mul * cmp (l.getD (rightChildIndex i) default)
          (l.getD (leftChildIndex i) default) ≤ 0) ∧
      (holeStep mom cmp l i = some (leftChildIndex i) ↔
        0 < mom.mul * cmp (l.getD (rightChildIndex i) default)
          (l.getD (leftChildIndex i) default))) := by
  have hne : leftChildIndex i ≠ rightChildIndex i := by
    unfold leftChildIndex rightChildIndex
    omega
  refine ⟨?_, ?_, ?_⟩
  · intro hl
    unfold holeStep
    rw [if_pos hl]
  · intro hl hr
    unfold holeStep
    rw [if_neg (by omega), if_pos (Or.inl hr)]
  · intro hr
    have hl : ¬ l.length ≤ leftChildIndex i := by
      unfold rightChildIndex at hr
      unfold leftChildIndex
      omega
    unfold holeStep
    rw [if_neg hl]
    by_cases hc : 0 < mom.mul * cmp (l.getD (rightChildIndex i) default)
        (l.getD (leftChildIndex i) default)
    · rw [if_pos (Or.inr hc)]
      constructor
      · constructor
        · intro heq
          exact absurd (Option.some.inj heq) hne
        · intro hle
          omega
      · exact ⟨fun _ => hc, fun _ => rfl⟩
    · rw [if_neg (not_or.mpr ⟨by omega, hc⟩)]
      constructor
      · exact ⟨fun _ => by omega, fun _ => rfl⟩
      · constructor
        · intro heq
          exact absurd (Option.some.inj heq).symm hne
        · intro h0
          exact absurd h0 hc

/-- Witness for C6 (amended) at a concrete heap: on [5, 9, 4] the step from
the root goes right since polarity_cmp(4, 9) <= 0. -/
theorem c6_witness :
    holeStep .Min cmpOrdered [(5 : Int), 9, 4] 0 = some (rightChildIndex 0) :=
  ((c6_amended_step_rule .Min cmpOrdered [(5 : Int), 9, 4] 0).2.2
    (by decide)).1.mpr (by decide)

/-- C7: filter evaluates the predicate on elements in storage order starting
at index 0, and the visited sequence is exactly the prefix up to and including
the first element signalling Break (all elements when none does); the
resulting heap's multiset is exactly the visited elements whose keep verdict
was true (the Break element is kept iff its own verdict was true, and
everything after it is dropped). -/
theorem c7_filter_visits {T : Type} [Inhabited T] (mom : MinOrMax)
    (cmp : T → T → Int) (h : Heap T) (f : T → Bool × BreakOrContinue) :
    filterVisits f h.sl.data = h.sl.data.take
      (min ((h.sl.data.findIdx fun x => decide ((f x).2 = BreakOrContinue.Break)) + 1)
        h.sl.data.length) ∧
    (↑(filter mom cmp h f).sl.data : Multiset T) =
      ↑((filterVisits f h.sl.data).filter fun x => (f x).1) := by
  refine ⟨filterVisits_eq_take f h.sl.data, ?_⟩
  rw [filter_coe, filterLoop_eq_filter_visits]

/-- C8: on every removal with at least one element remaining, if the capacity
is at least twice the new length the storage is reallocated to capacity
exactly the new length, otherwise the store is kept and only the logical
length drops; consequently, after any Pop that removed an element,
capacity <= 2 * length. -/
theorem c8_shrink_capacity :
    (∀ (T : Type) (a : GoSlice T), 2 ≤ a.data.length →
      (2 * (a.data.length - 1) ≤ a.cap →
        shrink a = ⟨a.data.take (a.data.length - 1), a.data.length - 1, false⟩) ∧
      (a.cap < 2 * (a.data.length - 1) →
        shrink a = ⟨a.data.take (a.data.length - 1), a.cap, a.isNil⟩)) ∧
    (∀ (T : Type) [Inhabited T] (mom : MinOrMax) (cmp : T → T → Int)
      (h : Heap T), 0 < h.sl.data.length →
      (pop mom cmp h).2.sl.cap ≤ 2 * (pop mom cmp h).2.sl.data.length) := by
  constructor
  · intro T a h2
    have hlen : (a.data.take (a.data.length - 1)).length = a.data.length - 1 := by
      rw [List.length_take]
      exact min_eq_left (by omega)
    constructor
    · intro hge
      simp only [shrink, goTake, nilSlice]
      rw [if_neg (by omega), if_pos (by rw [hlen]; omega), hlen]
    · intro hlt
      simp only [shrink, goTake, nilSlice]
      rw [if_neg (by omega), if_neg (by rw [hlen]; omega)]
  · intro T _ mom cmp h h0
    exact pop_cap_le mom cmp h h0

/-- Witness for C8 at a concrete slice and heap. -/
theorem c8_witness :
    shrink (⟨[(1 : Int), 2, 3, 4], 10, false⟩ : GoSlice Int) =
      ⟨[1, 2, 3], 3, false⟩ ∧
    (pop .Min cmpOrdered (Heap.mk ⟨[(1 : Int), 2, 3, 4], 10, false⟩)).2.sl.cap ≤
      2 * (pop .Min cmpOrdered
        (Heap.mk ⟨[(1 : Int), 2, 3, 4], 10, false⟩)).2.sl.data.length := by
  constructor
  · have h1 := (c8_shrink_capacity.1 Int ⟨[1, 2, 3, 4], 10, false⟩ (by decide)).1
      (by decide)
    rw [h1]
    decide
  · exact c8_shrink_capacity.2 Int .Min cmpOrdered _ (by decide)

/-- C9: on an empty heap, Pop returns (zero value, false) and leaves the heap
unchanged, and Peek returns (zero value, false); Peek is embedded as a pure
reader because the source never writes to the backing slice. -/
theorem c9_empty_pop_peek {T : Type} [Inhabited T] (mom : MinOrMax)
    (cmp : T → T → Int) (h : Heap T) (h0 : h.sl.data.length = 0) :
    pop mom cmp h = ((default, false), h) ∧ Peek h = (default, false) := by
  refine ⟨pop_empty mom cmp h0, ?_⟩
  simp [Peek, h0]

/-- Witness for C9 at the freshly constructed empty heap of ints. -/
theorem c9_witness :
    pop .Min cmpOrdered (emptyHeap Int) = ((default, false), emptyHeap Int) ∧
    Peek (emptyHeap Int) = ((default : Int), false) :=
  c9_empty_pop_peek .Min cmpOrdered (emptyHeap Int) rfl

/-- C10: Copy returns a heap with the identical element sequence (same length,
equal element at every position), and its backing store is always freshly
allocated and non-nil with capacity exactly the length — so the copy of an
empty heap has a non-nil zero-length backing slice, not the canonical nil
form. -/
theorem c10_copy {T : Type} (h : Heap T) :
    (Copy h).sl.data = h.sl.data ∧
    (h.sl.data = [] →
      (Copy h).sl.data.length = 0 ∧ (Copy h).sl.isNil = false) := by
  refine ⟨rfl, ?_⟩
  intro h0
  constructor
  · show h.sl.data.length = 0
    rw [h0]
    rfl
  · rfl

/-- Witness for C10 at the empty heap of ints. -/
theorem c10_witness :
    (Copy (emptyHeap Int)).sl.data.length = 0 ∧
    (Copy (emptyHeap Int)).sl.isNil = false :=
  (c10_copy (emptyHeap Int)).2 rfl

end HeapSpec
